import Mathlib

/-!
Verification of the persistence plugin in `src/index.ts`
(`pinia-plugin-uni-persist-next`).

The development shallowly embeds the plugin's core:
the codec (`safeStringify` / `safeParse`), the projector (`pick`),
key resolution (`getFullKey` over `strategy.key || store.$id`), the
restore engine, the mutation-subscription write pipeline, and the
`$reset` interceptor.

Modelling conventions:
- JavaScript values are `JVal`.  Objects and arrays may be written
  inline (a fresh identity) or as `JVal.ref a`, a reference into an
  explicit heap (`Heap`), which is how shared identities and cyclic
  object graphs are represented — `JSON.stringify`'s replacer tracks
  identities in a `WeakSet`, so identity matters.
- `JSON.stringify` with the plugin's replacer is modelled by `serStep`,
  following ECMA-262 `SerializeJSONProperty`: a value's `toJSON` method
  (only `Date` has one here, `toJSONStep`) is invoked BEFORE the
  replacer is applied.  Recursion is fuelled; `serFuelSuff` proves the
  chosen fuel always suffices, so fuel exhaustion is unreachable.
- `JSON.parse` is modelled by a fuelled recursive-descent reader
  (`parseStep`).  JSON numbers are restricted to integers (state
  numbers are modelled as `Int`), and `\uXXXX` string escapes are
  supported; this covers every input the claims exercise.
- The storage backend (`uni.getStorageSync` / `setStorage` /
  `setStorageSync` / `removeStorageSync`) is external; it is modelled
  as a string key-value list plus lists of keys whose reads, removals
  or synchronous writes throw, matching the spec's backend contract.
- `console.*` calls and storage dispatches are recorded as events
  (`Ev`) so that logging/dispatch behaviour is observable.
-/

namespace UniPersist

/-- JavaScript runtime values reachable from a store snapshot.
`undef` is `undefined`, `num` models JS numbers (restricted to
integers), `bigint` a BigInt, `date iso` a `Date` whose
`toISOString()` is `iso`, and `ref a` a reference to a heap object. -/
inductive JVal : Type where
| undef : JVal
| null : JVal
| bool (b : Bool) : JVal
| num (n : Int) : JVal
| str (s : String) : JVal
| bigint (n : Int) : JVal
| date (iso : String) : JVal
| arr (elems : List JVal) : JVal
| obj (fields : List (String × JVal)) : JVal
| ref (a : Nat) : JVal

/-- A heap-allocated object: a plain object or an array. -/
inductive Node : Type where
| nobj (fields : List (String × JVal)) : Node
| narr (elems : List JVal) : Node

/-- The object heap: addresses mapped to nodes. -/
abbrev Heap : Type := List (Nat × Node)

/-- First node stored at address `a`, if any. -/
def heapLookup : Heap → Nat → Option Node
| [], _ => none
| (a', n) :: rest, a => if a' = a then some n else heapLookup rest a

/-- JSON documents, the output language of `JSON.stringify`. -/
inductive J : Type where
| null : J
| bool (b : Bool) : J
| num (n : Int) : J
| str (s : String) : J
| arr (elems : List J) : J
| obj (fields : List (String × J)) : J

/- Association-list helpers shared by the state, storage and object
models.  JS objects have unique keys; `setKey` overwrites in place. -/

/-- Look up the value stored under `k`. -/
def lookupKey {α : Type} : List (String × α) → String → Option α
| [], _ => none
| (k', v) :: rest, k => if k' = k then some v else lookupKey rest k

/-- Set `k` to `v`, replacing an existing binding or appending. -/
def setKey {α : Type} : List (String × α) → String → α → List (String × α)
| [], k, v => [(k, v)]
| (k', v') :: rest, k, v =>
  if k' = k then (k, v) :: rest else (k', v') :: setKey rest k v

/-- Remove the binding for `k`, if present. -/
def eraseKey {α : Type} : List (String × α) → String → List (String × α)
| [], _ => []
| (k', v') :: rest, k =>
  if k' = k then rest else (k', v') :: eraseKey rest k

/- Characters with a structural role in JSON source text (quote,
backslash, braces) are defined once via `Char.ofNat` and referred to by
name, keeping the serializer and the reader visibly in sync. -/

/-- The double-quote character. -/
def qchar : Char := Char.ofNat 34

/-- The backslash character. -/
def bschar : Char := Char.ofNat 92

/-- The opening-brace character. -/
def obrace : Char := Char.ofNat 123

/-- The closing-brace character. -/
def cbrace : Char := Char.ofNat 125

/-- Lower-case hexadecimal digit for `n < 16`. -/
def hexDigit (n : Nat) : Char :=
  if n < 10 then Char.ofNat (48 + n) else Char.ofNat (87 + n)

/-- JSON string escaping of one character, as `JSON.stringify` does it:
quote, backslash and control characters are escaped, everything else is
kept verbatim. -/
def escChar (c : Char) : String :=
  if c = qchar then String.mk [bschar, qchar]
  else if c = bschar then String.mk [bschar, bschar]
  else if c.toNat = 10 then String.mk [bschar, Char.ofNat 110]
  else if c.toNat = 9 then String.mk [bschar, Char.ofNat 116]
  else if c.toNat = 13 then String.mk [bschar, Char.ofNat 114]
  else if c.toNat = 8 then String.mk [bschar, Char.ofNat 98]
  else if c.toNat = 12 then String.mk [bschar, Char.ofNat 102]
  else if c.toNat < 32 then
    String.mk [bschar, Char.ofNat 117, Char.ofNat 48, Char.ofNat 48,
      hexDigit (c.toNat / 16), hexDigit (c.toNat % 16)]
  else String.singleton c

/-- Quote a string as a JSON string literal. -/
def quoteStr (s : String) : String :=
  String.singleton qchar ++ String.join (s.toList.map escChar) ++ String.singleton qchar

mutual

/-- Render a JSON document the way `JSON.stringify` does (no spacing,
members in order). -/
def jsonStringify : J → String
| J.null => "null"
| J.bool true => "true"
| J.bool false => "false"
| J.num n => toString n
| J.str s => quoteStr s
| J.arr l => "[" ++ jsonStringifyElems l ++ "]"
| J.obj kvs => String.singleton obrace ++ jsonStringifyMembers kvs ++ String.singleton cbrace

/-- Comma-separated rendering of array elements. -/
def jsonStringifyElems : List J → String
| [] => ""
| [j] => jsonStringify j
| j :: rest => jsonStringify j ++ "," ++ jsonStringifyElems rest

/-- Comma-separated rendering of object members. -/
def jsonStringifyMembers : List (String × J) → String
| [] => ""
| [(k, j)] => quoteStr k ++ ":" ++ jsonStringify j
| (k, j) :: rest => quoteStr k ++ ":" ++ jsonStringify j ++ "," ++ jsonStringifyMembers rest

end

example : jsonStringify (J.obj [("d", J.str "x")]) = "\x7b\"d\":\"x\"\x7d" := rfl

/- A recursive-descent model of `JSON.parse`.  It produces `JVal`
directly, since `JSON.parse` yields plain JavaScript values (only the
`null`/`bool`/`num`/`str`/`arr`/`obj` constructors appear in results). -/

/-- Hexadecimal digit value of a character, if it is one. -/
def hexVal (c : Char) : Option Nat :=
  if 48 ≤ c.toNat ∧ c.toNat ≤ 57 then some (c.toNat - 48)
  else if 97 ≤ c.toNat ∧ c.toNat ≤ 102 then some (c.toNat - 87)
  else if 65 ≤ c.toNat ∧ c.toNat ≤ 70 then some (c.toNat - 55)
  else none

/-- Skip JSON whitespace. -/
def skipWs : List Char → List Char
| [] => []
| c :: cs =>
  if c = ' ' ∨ c.toNat = 9 ∨ c.toNat = 10 ∨ c.toNat = 13 then skipWs cs
  else c :: cs

/-- Read a JSON string body (after the opening quote) up to the closing
quote, decoding escapes; returns the decoded characters and the rest. -/
def readStrBody : List Char → Option (List Char × List Char)
| [] => none
| c :: cs =>
  if c = qchar then some ([], cs)
  else if c = bschar then
    match cs with
    | [] => none
    | e :: cs' =>
      if e = qchar then (readStrBody cs').map (fun p => (qchar :: p.1, p.2))
      else if e = bschar then (readStrBody cs').map (fun p => (bschar :: p.1, p.2))
      else if e = '/' then (readStrBody cs').map (fun p => ('/' :: p.1, p.2))
      else if e.toNat = 110 then (readStrBody cs').map (fun p => (Char.ofNat 10 :: p.1, p.2))
      else if e.toNat = 116 then (readStrBody cs').map (fun p => (Char.ofNat 9 :: p.1, p.2))
      else if e.toNat = 114 then (readStrBody cs').map (fun p => (Char.ofNat 13 :: p.1, p.2))
      else if e.toNat = 98 then (readStrBody cs').map (fun p => (Char.ofNat 8 :: p.1, p.2))
      else if e.toNat = 102 then (readStrBody cs').map (fun p => (Char.ofNat 12 :: p.1, p.2))
      else if e.toNat = 117 then
        match cs' with
        | h1 :: h2 :: h3 :: h4 :: rest =>
          match hexVal h1, hexVal h2, hexVal h3, hexVal h4 with
          | some a, some b, some c3, some d =>
            (readStrBody rest).map
              (fun p => (Char.ofNat (((a * 16 + b) * 16 + c3) * 16 + d) :: p.1, p.2))
          | _, _, _, _ => none
        | _ => none
      else none
  else (readStrBody cs).map (fun p => (c :: p.1, p.2))

/-- Numeric value of a digit list. -/
def digitsVal (ds : List Char) : Nat :=
  ds.foldl (fun acc c => acc * 10 + (c.toNat - 48)) 0

/-- Parser modes: a value, an array right after the bracket, one array
element plus the following elements, the continuation of an array, an
object right after the brace, one member plus the following members,
and the continuation of an object. -/
inductive PTask : Type where
| pval : PTask
| parrStart : PTask
| pelem : PTask
| parrNext : PTask
| pobjStart : PTask
| pmem : PTask
| pobjNext : PTask

/-- Parser results for the respective modes. -/
inductive POut : Type where
| pv (v : JVal) : POut
| pl (l : List JVal) : POut
| pm (l : List (String × JVal)) : POut

/-- One fuelled step of the recursive-descent reader. -/
def parseStep : Nat → PTask → List Char → Option (POut × List Char)
| 0, _, _ => none
| Nat.succ fuel, PTask.pval, cs =>
  match skipWs cs with
  | 'n' :: 'u' :: 'l' :: 'l' :: rest => some (POut.pv JVal.null, rest)
  | 't' :: 'r' :: 'u' :: 'e' :: rest => some (POut.pv (JVal.bool true), rest)
  | 'f' :: 'a' :: 'l' :: 's' :: 'e' :: rest => some (POut.pv (JVal.bool false), rest)
  | c :: rest =>
    if c = qchar then
      (readStrBody rest).map (fun p => (POut.pv (JVal.str (String.mk p.1)), p.2))
    else if c = obrace then
      match parseStep fuel PTask.pobjStart rest with
      | some (POut.pm ms, rest') => some (POut.pv (JVal.obj ms), rest')
      | _ => none
    else if c = '[' then
      match parseStep fuel PTask.parrStart rest with
      | some (POut.pl l, rest') => some (POut.pv (JVal.arr l), rest')
      | _ => none
    else if c = '-' then
      match (rest.span Char.isDigit) with
      | (ds, rest') =>
        if ds.isEmpty then none
        else some (POut.pv (JVal.num (-(Int.ofNat (digitsVal ds)))), rest')
    else if c.isDigit then
      match ((c :: rest).span Char.isDigit) with
      | (ds, rest') => some (POut.pv (JVal.num (Int.ofNat (digitsVal ds))), rest')
    else none
  | [] => none
| Nat.succ fuel, PTask.parrStart, cs =>
  match skipWs cs with
  | ']' :: rest => some (POut.pl [], rest)
  | cs' => parseStep fuel PTask.pelem cs'
| Nat.succ fuel, PTask.pelem, cs =>
  match parseStep fuel PTask.pval cs with
  | some (POut.pv v, cs2) =>
    match parseStep fuel PTask.parrNext cs2 with
    | some (POut.pl l, cs3) => some (POut.pl (v :: l), cs3)
    | _ => none
  | _ => none
| Nat.succ fuel, PTask.parrNext, cs =>
  match skipWs cs with
  | ',' :: rest => parseStep fuel PTask.pelem rest
  | ']' :: rest => some (POut.pl [], rest)
  | _ => none
| Nat.succ fuel, PTask.pobjStart, cs =>
  match skipWs cs with
  | c :: rest =>
    if c = cbrace then some (POut.pm [], rest)
    else parseStep fuel PTask.pmem (c :: rest)
  | [] => none
| Nat.succ fuel, PTask.pmem, cs =>
  match skipWs cs with
  | c :: rest =>
    if c = qchar then
      match readStrBody rest with
      | some (kcs, cs2) =>
        match skipWs cs2 with
        | ':' :: cs3 =>
          match parseStep fuel PTask.pval cs3 with
          | some (POut.pv v, cs4) =>
            match parseStep fuel PTask.pobjNext cs4 with
            | some (POut.pm ms, cs5) => some (POut.pm ((String.mk kcs, v) :: ms), cs5)
            | _ => none
          | _ => none
        | _ => none
      | none => none
    else none
  | [] => none
| Nat.succ fuel, PTask.pobjNext, cs =>
  match skipWs cs with
  | ',' :: rest => parseStep fuel PTask.pmem rest
  | c :: rest => if c = cbrace then some (POut.pm [], rest) else none
  | [] => none

/-- Model of `JSON.parse` on a whole string: parse one value and require only
whitespace to remain; any violation of the grammar yields `none`
(the thrown `SyntaxError`). -/
def jsonParse (s : String) : Option JVal :=
  match parseStep (s.length * 4 + 16) PTask.pval s.toList with
  | some (POut.pv v, rest) => if (skipWs rest).isEmpty then some v else none
  | _ => none

example : jsonParse "\x7b\"a\":[1,-2,null],\"b\":\"x\"\x7d"
    = some (JVal.obj [("a", JVal.arr [JVal.num 1, JVal.num (-2), JVal.null]),
        ("b", JVal.str "x")]) := rfl

example : jsonParse "not json" = none := rfl

example : jsonParse " \x7b\"k\":true\x7d " = some (JVal.obj [("k", JVal.bool true)]) := rfl

/- The serializer of `safeStringify`: `JSON.stringify(obj, replacer)`
where the replacer maps `undefined` to `null`, BigInt to its decimal
string, `Date` to a `\x7b __date__ \x7d` marker, and an object already in the
per-call `WeakSet` to the string "[Circular]".  Per ECMA-262
`SerializeJSONProperty`, a value's `toJSON` method runs BEFORE the
replacer, and `Date.prototype.toJSON` returns the ISO string. -/

/-- ECMA-262 `SerializeJSONProperty` step 2: invoke `toJSON` if the
value has one.  Only `Date` does: it returns `toISOString()`. -/
def toJSONStep : JVal → JVal
| JVal.date iso => JVal.str iso
| v => v

/-- Serializer work items: one property value, an object's field list,
or an array's element list. -/
inductive STask : Type where
| sval (v : JVal) : STask
| sfields (kvs : List (String × JVal)) : STask
| selems (vs : List JVal) : STask

/-- Serializer results matching the three work-item kinds. -/
inductive SOut : Type where
| oval (j : J) : SOut
| ofields (l : List (String × J)) : SOut
| oelems (l : List J) : SOut

/-- One fuelled step of the serializer.  The `List Nat` argument is the
replacer's `WeakSet` of already-seen heap identities, threaded through
the whole call (entries are added, never removed).  Inline `arr`/`obj`
values are fresh identities, so the seen-set cannot hit them; `ref`
values are looked up in the heap and checked against the set.  The
`date` arm mirrors the replacer's `value instanceof Date` branch; it is
unreachable because `toJSONStep` has already turned dates into
strings. -/
def serStep (H : Heap) : Nat → List Nat → STask → Option (SOut × List Nat)
| 0, _, _ => none
| Nat.succ fuel, seen, STask.sval v =>
  match toJSONStep v with
  | JVal.undef => some (SOut.oval J.null, seen)
  | JVal.null => some (SOut.oval J.null, seen)
  | JVal.bool b => some (SOut.oval (J.bool b), seen)
  | JVal.num n => some (SOut.oval (J.num n), seen)
  | JVal.str s => some (SOut.oval (J.str s), seen)
  | JVal.bigint n => some (SOut.oval (J.str (toString n)), seen)
  | JVal.date iso => some (SOut.oval (J.obj [("__date__", J.str iso)]), seen)
  | JVal.arr vs =>
    match serStep H fuel seen (STask.selems vs) with
    | some (SOut.oelems js, s1) => some (SOut.oval (J.arr js), s1)
    | _ => none
  | JVal.obj kvs =>
    match serStep H fuel seen (STask.sfields kvs) with
    | some (SOut.ofields fs, s1) => some (SOut.oval (J.obj fs), s1)
    | _ => none
  | JVal.ref a =>
    if a ∈ seen then some (SOut.oval (J.str "[Circular]"), seen)
    else
      match heapLookup H a with
      | some (Node.nobj kvs) =>
        match serStep H fuel (a :: seen) (STask.sfields kvs) with
        | some (SOut.ofields fs, s1) => some (SOut.oval (J.obj fs), s1)
        | _ => none
      | some (Node.narr vs) =>
        match serStep H fuel (a :: seen) (STask.selems vs) with
        | some (SOut.oelems js, s1) => some (SOut.oval (J.arr js), s1)
        | _ => none
      | none => some (SOut.oval J.null, seen)
| Nat.succ _, seen, STask.sfields [] => some (SOut.ofields [], seen)
| Nat.succ fuel, seen, STask.sfields ((k, v) :: rest) =>
  match serStep H fuel seen (STask.sval v) with
  | some (SOut.oval j, s1) =>
    match serStep H fuel s1 (STask.sfields rest) with
    | some (SOut.ofields fs, s2) => some (SOut.ofields ((k, j) :: fs), s2)
    | _ => none
  | _ => none
| Nat.succ _, seen, STask.selems [] => some (SOut.oelems [], seen)
| Nat.succ fuel, seen, STask.selems (v :: rest) =>
  match serStep H fuel seen (STask.sval v) with
  | some (SOut.oval j, s1) =>
    match serStep H fuel s1 (STask.selems rest) with
    | some (SOut.oelems js, s2) => some (SOut.oelems (j :: js), s2)
    | _ => none
  | _ => none

mutual

/-- Executable size of a value (leaves count 1). -/
def vsize : JVal → Nat
| JVal.arr vs => 1 + esize vs
| JVal.obj kvs => 1 + fsize kvs
| _ => 1

/-- Executable size of a field list. -/
def fsize : List (String × JVal) → Nat
| [] => 0
| (_, v) :: rest => 1 + vsize v + fsize rest

/-- Executable size of an element list. -/
def esize : List JVal → Nat
| [] => 0
| v :: rest => 1 + vsize v + esize rest

end

/-- Executable size of a heap node. -/
def nsize : Node → Nat
| Node.nobj kvs => 1 + fsize kvs
| Node.narr vs => 1 + esize vs

/-- Weight of the heap portion not yet in the seen-set: an upper bound
on how much serializer work dereferencing unseen addresses can add. -/
def W : List (Nat × Node) → List Nat → Nat
| [], _ => 0
| (a, n) :: rest, seen => (if a ∈ seen then 0 else nsize n + 1) + W rest seen

/-- Size of a serializer work item. -/
def taskSize : STask → Nat
| STask.sval v => vsize v
| STask.sfields kvs => fsize kvs
| STask.selems vs => esize vs

/-- Fuel that provably suffices to serialize `v` against heap `H`. -/
def serFuel (H : Heap) (v : JVal) : Nat := vsize v + W H [] + 1

/-- The whole `JSON.stringify(v, replacer)` call, producing the JSON
document; the seen-set starts empty on every call. -/
def encodeTop (H : Heap) (v : JVal) : Option J :=
  match serStep H (serFuel H v) [] (STask.sval v) with
  | some (SOut.oval j, _) => some j
  | _ => none

/-- Function `safeStringify` from `src/index.ts`: serialize with the replacer and
render the JSON document.  Fuel exhaustion cannot happen
(`encodeTop_isSome`); the `""` default is dead. -/
def safeStringify (H : Heap) (v : JVal) : String :=
  match encodeTop H v with
  | some j => jsonStringify j
  | none => ""

example : safeStringify [] (JVal.obj [("a", JVal.num 1), ("b", JVal.undef),
    ("c", JVal.bigint 123), ("d", JVal.date "2024-01-02T03:04:05.000Z")])
    = "\x7b\"a\":1,\"b\":null,\"c\":\"123\",\"d\":\"2024-01-02T03:04:05.000Z\"\x7d" := rfl

example : safeStringify [(0, Node.nobj [("self", JVal.ref 0)])] (JVal.ref 0)
    = "\x7b\"self\":\"[Circular]\"\x7d" := rfl

example : safeStringify [(0, Node.nobj [("x", JVal.num 1)])]
    (JVal.obj [("a", JVal.ref 0), ("b", JVal.ref 0)])
    = "\x7b\"a\":\x7b\"x\":1\x7d,\"b\":\"[Circular]\"\x7d" := rfl

/- `safeParse` from `src/index.ts`. -/

/-- The body of the `Object.keys(parsed).forEach` loop: if a direct
field's value is an object whose `__date__` property is a truthy string
(i.e. non-empty), replace the field with `new Date(v.__date__)`,
modelled as `JVal.date`. -/
def rehydrateField (v : JVal) : JVal :=
  match v with
  | JVal.obj kvs =>
    match lookupKey kvs "__date__" with
    | some (JVal.str s) => if s = "" then v else JVal.date s
    | _ => v
  | _ => v

/-- Date restoration over the direct fields of the parsed value (one
level only).  `Object.keys` of an array yields its indices, so array
elements are also inspected; any other value is left alone. -/
def rehydrate (parsed : JVal) : JVal :=
  match parsed with
  | JVal.obj kvs => JVal.obj (kvs.map (fun kv => (kv.1, rehydrateField kv.2)))
  | JVal.arr vs => JVal.arr (vs.map rehydrateField)
  | v => v

/-- Does `safeParse` hit its `catch` and `console.error`?  True exactly
when the raw value is non-empty (truthy) but fails to parse. -/
def parseLogged (raw : String) : Bool :=
  raw ≠ "" && (jsonParse raw).isNone

/-- Function `safeParse` from `src/index.ts` on a stored string: falsy input
(the empty string) returns `null` immediately; a parse failure is
caught, logged and returns `null`; otherwise dates are restored one
level deep and the value is returned.  The JavaScript `null` result is
`JVal.null` (callers compare with `!== null`). -/
def safeParse (raw : String) : JVal :=
  if raw = "" then JVal.null
  else
    match jsonParse raw with
    | none => JVal.null
    | some parsed => rehydrate parsed

example : safeParse "\x7b\"d\":\x7b\"__date__\":\"2024-01-02T03:04:05.000Z\"\x7d\x7d"
    = JVal.obj [("d", JVal.date "2024-01-02T03:04:05.000Z")] := rfl

example : safeParse "broken" = JVal.null := rfl

/-- Function `getByteLength` from `src/index.ts`: the UTF-8 byte size of the
encoded record (the `TextEncoder` branch; the manual fallback computes
the same count for all non-surrogate text). -/
def getByteLength (s : String) : Nat := s.utf8ByteSize

/-- The 3.5 MiB soft size threshold (`3.5 * 1024 * 1024` bytes). -/
def sizeThreshold : Nat := 3670016

/-- Function `pick` from `src/index.ts` (the spec's `project`): with no paths or
an empty path list, a shallow copy of the whole state; otherwise a new
object receiving, in path order, each listed top-level key that exists
on the state (`p in state`). -/
def pick (st : List (String × JVal)) (paths : Option (List String)) : List (String × JVal) :=
  match paths with
  | none => st
  | some ps =>
    if ps.isEmpty then st
    else ps.foldl (fun acc p =>
      match lookupKey st p with
      | some v => setKey acc p v
      | none => acc) []

example : pick [("a", JVal.num 1), ("b", JVal.num 2), ("c", JVal.num 3)] (some ["a", "c"])
    = [("a", JVal.num 1), ("c", JVal.num 3)] := rfl

example : pick [("a", JVal.num 1)] (some ["missing"]) = [] := rfl

/- Per-store configuration and key resolution. -/

/-- A `PersistStrategy` from `src/index.ts`: optional storage key,
optional projected paths, optional per-strategy async override. -/
structure Strategy : Type where
  key : Option String
  paths : Option (List String)
  async : Option Bool

/-- The effective key of a strategy: `strategy.key || store.$id`
composed with `getFullKey`'s prefixing.  JavaScript `||` falls back on
every falsy value, so an absent key AND the empty-string key both
resolve to the store id. -/
def resolveKey (pre : String) (key : Option String) (storeId : String) : String :=
  pre ++ (match key with
    | some s => if s = "" then storeId else s
    | none => storeId)

/-- The key-resolution rule exactly as the spec words it:
`prefix + (strategyKey ?? storeId)` — the store id is used only when
the strategy key is absent. -/
def specResolveKey (pre : String) (key : Option String) (storeId : String) : String :=
  pre ++ key.getD storeId

/-- The `persist` options consumed from the store definition
(`enabled`, `strategies`, global `async`; the lifecycle hooks carry no
data relevant to the claims). -/
structure PersistOptions : Type where
  enabled : Bool
  strategies : List Strategy
  async : Option Bool

/-- The default `persist.strategies?.length ? persist.strategies : [ ... key: store.$id ... ]`. -/
def effStrategies (storeId : String) (ss : List Strategy) : List Strategy :=
  if ss.isEmpty then [⟨some storeId, none, none⟩] else ss

/-- Line `const globalAsync = persist.async ?? true`. -/
def globalAsyncOf (a : Option Bool) : Bool := a.getD true

/-- The `flush` option passed to `store.$subscribe`:
`globalAsync ? 'post' : 'sync'`. -/
inductive FlushMode : Type where
| post : FlushMode
| sync : FlushMode
deriving DecidableEq

/-- Option `flush: globalAsync ? post : sync` of the subscription. -/
def flushOf (a : Option Bool) : FlushMode :=
  if globalAsyncOf a then FlushMode.post else FlushMode.sync

/-- The attach-time configuration the three engines close over. -/
structure Cfg : Type where
  pre : String
  storeId : String
  globalAsync : Bool
  strategies : List Strategy

/-- Build the engine configuration from the plugin option (`keyPrefix`)
and the store's persist options, as the plugin body does. -/
def mkCfg (keyPre : String) (storeId : String) (po : PersistOptions) : Cfg :=
  ⟨keyPre, storeId, globalAsyncOf po.async, effStrategies storeId po.strategies⟩

/-- The storage key each strategy resolves to, in declaration order. -/
def strategyKeys (cfg : Cfg) : List String :=
  cfg.strategies.map (fun s => resolveKey cfg.pre s.key cfg.storeId)

/- The storage backend (external collaborator, spec section 6): string
key-value pairs plus the keys whose synchronous read, removal or write
throws. -/

/-- The uni-app storage backend model. -/
structure Backend : Type where
  store : List (String × String)
  readFails : List String
  removeFails : List String
  syncWriteFails : List String

/-- Backend read `uni.getStorageSync`: throws for keys in `readFails`, otherwise
returns the stored string, or the empty string when the key is absent. -/
def getStorageSync (b : Backend) (k : String) : Except Unit String :=
  if k ∈ b.readFails then Except.error ()
  else Except.ok ((lookupKey b.store k).getD "")

/-- Backend removal `uni.removeStorageSync`: throws for keys in `removeFails`. -/
def removeStorageSync (b : Backend) (k : String) : Except Unit Backend :=
  if k ∈ b.removeFails then Except.error ()
  else Except.ok { b with store := eraseKey b.store k }

/-- Backend write `uni.setStorageSync`: throws for keys in `syncWriteFails`. -/
def setStorageSync (b : Backend) (k v : String) : Except Unit Backend :=
  if k ∈ b.syncWriteFails then Except.error ()
  else Except.ok { b with store := setKey b.store k v }

/-- Backend write `uni.setStorage` (asynchronous, fire-and-forget): the dispatch
itself never throws; completion applies the write. -/
def setStorageAsync (b : Backend) (k v : String) : Backend :=
  { b with store := setKey b.store k v }

/-- Observable actions of the engines: `console` output and storage
dispatches. -/
inductive Ev : Type where
| readK (k : String) : Ev
| logLoadErr (k : String) : Ev
| logParseErr : Ev
| removeTry (k : String) : Ev
| warnSize (k : String) : Ev
| wAsync (k data : String) : Ev
| wSyncOk (k data : String) : Ev
| wSyncErr (k : String) : Ev
deriving DecidableEq

/-- The store state: top-level fields to values. -/
abbrev State : Type := List (String × JVal)

/-- Pinia's `store.$patch` with a partial-state object (external
collaborator, spec section 6): merges the given top-level fields into
the state; a non-object argument is modelled as a no-op. -/
def patch (st : State) (v : JVal) : State :=
  match v with
  | JVal.obj kvs => kvs.foldl (fun acc kv => setKey acc kv.1 kv.2) st
  | _ => st

/- Restore engine (Step 1 of the plugin body): for each strategy, read
synchronously, `safeParse`, and `$patch` any non-null result; the
`try`/`catch` around the body logs and removes the key only when
something THROWS — `safeParse` swallows decode failures internally, so
only a backend-read exception reaches the catch.  The removal inside
the catch is itself unguarded, so a removal exception aborts the loop. -/

/-- The `strategies.forEach` restore loop, threading the backend, the
store state and the emitted events. -/
def restoreGo (cfg : Cfg) : List Strategy → Backend → State → List Ev →
    Except Unit (Backend × State) × List Ev
| [], b, st, evs => (Except.ok (b, st), evs)
| s :: rest, b, st, evs =>
  let key := resolveKey cfg.pre s.key cfg.storeId
  match getStorageSync b key with
  | Except.error _ =>
    let evs' := evs ++ [Ev.readK key, Ev.logLoadErr key, Ev.removeTry key]
    match removeStorageSync b key with
    | Except.error _ => (Except.error (), evs')
    | Except.ok b' => restoreGo cfg rest b' st evs'
  | Except.ok raw =>
    let evs' := evs ++ [Ev.readK key] ++ (if parseLogged raw then [Ev.logParseErr] else [])
    match safeParse raw with
    | JVal.null => restoreGo cfg rest b st evs'
    | v => restoreGo cfg rest b (patch st v) evs'

/-- The whole restore pass over a store's strategies. -/
def restoreAll (cfg : Cfg) (b : Backend) (st : State) :
    Except Unit (Backend × State) × List Ev :=
  restoreGo cfg cfg.strategies b st []

/- Write pipeline (Step 2): the `$subscribe` callback.  Per strategy:
resolve the key, project, encode, warn when the encoded record exceeds
the soft threshold, then dispatch asynchronously or synchronously
according to `(globalAsync && strategy.async !== false) ||
strategy.async === true`; a synchronous throw is caught and logged. -/

/-- Line `const shouldUseAsync = (globalAsync && strategy.async !== false) ||
strategy.async === true`. -/
def shouldUseAsyncOf (globalAsync : Bool) (s : Strategy) : Bool :=
  (globalAsync && !(s.async == some false)) || (s.async == some true)

/-- Handling of one strategy inside the subscription callback. -/
def processStrategy (cfg : Cfg) (H : Heap) (st : State)
    (acc : Backend × List Ev) (s : Strategy) : Backend × List Ev :=
  let key := resolveKey cfg.pre s.key cfg.storeId
  let data := pick st s.paths
  let json := safeStringify H (JVal.obj data)
  let warnEvs := if sizeThreshold < getByteLength json then [Ev.warnSize key] else []
  if shouldUseAsyncOf cfg.globalAsync s then
    (setStorageAsync acc.1 key json, acc.2 ++ warnEvs ++ [Ev.wAsync key json])
  else
    match setStorageSync acc.1 key json with
    | Except.ok b' => (b', acc.2 ++ warnEvs ++ [Ev.wSyncOk key json])
    | Except.error _ => (acc.1, acc.2 ++ warnEvs ++ [Ev.wSyncErr key])

/-- One mutation notification: every strategy is processed in order. -/
def processMutation (cfg : Cfg) (H : Heap) (b : Backend) (st : State) :
    Backend × List Ev :=
  cfg.strategies.foldl (processStrategy cfg H st) (b, [])

/-- The storage dispatches contained in an event trace, in order, with
their mode (`true` = asynchronous). -/
def dispatchesOf (evs : List Ev) : List (String × Bool) :=
  evs.filterMap (fun e =>
    match e with
    | Ev.wAsync k _ => some (k, true)
    | Ev.wSyncOk k _ => some (k, false)
    | Ev.wSyncErr k => some (k, false)
    | _ => none)

/-- The read keys contained in an event trace, in order. -/
def readKeysOf (evs : List Ev) : List String :=
  evs.filterMap (fun e => match e with | Ev.readK k => some k | _ => none)

/-- The removal attempts contained in an event trace, in order. -/
def removeTriesOf (evs : List Ev) : List String :=
  evs.filterMap (fun e => match e with | Ev.removeTry k => some k | _ => none)

/- Reset interceptor (Step 3): the wrapped `$reset` calls the original
reset (NOT wrapped in `try`), then removes every strategy's key,
swallowing each removal error with an empty catch. -/

/-- One removal attempt inside the wrapped reset's `forEach`: a removal
failure is swallowed. -/
def resetRemoveStep (cfg : Cfg) (acc : Backend × List Ev) (s : Strategy) :
    Backend × List Ev :=
  let key := resolveKey cfg.pre s.key cfg.storeId
  match removeStorageSync acc.1 key with
  | Except.ok b' => (b', acc.2 ++ [Ev.removeTry key])
  | Except.error _ => (acc.1, acc.2 ++ [Ev.removeTry key])

/-- The wrapped `$reset`.  `orig` is the store's original reset
behaviour (which may throw); its exception propagates unchanged and, in
that case, no removal is attempted. -/
def wrappedReset (orig : State → Except Unit State) (cfg : Cfg)
    (b : Backend) (st : State) : Except Unit (State × Backend) × List Ev :=
  match orig st with
  | Except.error e => (Except.error e, [])
  | Except.ok st' =>
    let r := cfg.strategies.foldl (resetRemoveStep cfg) (b, [])
    (Except.ok (st', r.1), r.2)

/- Helper lemmas. -/

/-- Looking up a key just set. -/
theorem lookupKey_setKey_self {α : Type} (l : List (String × α)) (k : String) (v : α) :
    lookupKey (setKey l k v) k = some v := by
  induction l with
  | nil => simp [setKey, lookupKey]
  | cons hd tl ih =>
    obtain ⟨k', v'⟩ := hd
    by_cases h : k' = k <;> simp [setKey, lookupKey, h, ih]

/-- Setting one key leaves other lookups unchanged. -/
theorem lookupKey_setKey_ne {α : Type} (l : List (String × α)) (k k' : String) (v : α)
    (h : k ≠ k') : lookupKey (setKey l k v) k' = lookupKey l k' := by
  induction l with
  | nil => simp [setKey, lookupKey, h]
  | cons hd tl ih =>
    obtain ⟨k0, v0⟩ := hd
    by_cases h0 : k0 = k
    · subst h0; simp [setKey, lookupKey, h]
    · simp [setKey, h0, lookupKey]
      by_cases h1 : k0 = k' <;> simp [h1, ih]

/-- The seen-set only ever grows during serialization. -/
theorem serStep_mono (H : Heap) : ∀ fuel seen t o s1,
    serStep H fuel seen t = some (o, s1) → seen ⊆ s1 := by
  intro fuel
  induction fuel with
  | zero => intro seen t o s1 h; simp [serStep] at h
  | succ fuel ih =>
    intro seen t o s1 h
    have hsub : ∀ (a : Nat) (s : List Nat), s ⊆ a :: s :=
      fun a s x hx => List.mem_cons_of_mem a hx
    cases t with
    | sval v =>
      cases v <;> simp only [serStep, toJSONStep] at h
      case undef => cases h; exact List.Subset.refl _
      case null => cases h; exact List.Subset.refl _
      case bool => cases h; exact List.Subset.refl _
      case num => cases h; exact List.Subset.refl _
      case str => cases h; exact List.Subset.refl _
      case bigint => cases h; exact List.Subset.refl _
      case date => cases h; exact List.Subset.refl _
      case arr vs =>
        split at h
        · rename_i js s1' heq
          cases h; exact ih _ _ _ _ heq
        · cases h
      case obj kvs =>
        split at h
        · rename_i fs s1' heq
          cases h; exact ih _ _ _ _ heq
        · cases h
      case ref a =>
        split at h
        · cases h; exact List.Subset.refl _
        · split at h
          · rename_i kvs _
            split at h
            · rename_i fs s1' heq
              cases h; exact List.Subset.trans (hsub a seen) (ih _ _ _ _ heq)
            · cases h
          · rename_i vs _
            split at h
            · rename_i js s1' heq
              cases h; exact List.Subset.trans (hsub a seen) (ih _ _ _ _ heq)
            · cases h
          · cases h; exact List.Subset.refl _
    | sfields kvs =>
      cases kvs with
      | nil => simp only [serStep] at h; cases h; exact List.Subset.refl _
      | cons hd tl =>
        obtain ⟨k, v⟩ := hd
        simp only [serStep] at h
        split at h
        · rename_i j s1' heq1
          split at h
          · rename_i fs s2 heq2
            cases h; exact List.Subset.trans (ih _ _ _ _ heq1) (ih _ _ _ _ heq2)
          · cases h
        · cases h
    | selems vs =>
      cases vs with
      | nil => simp only [serStep] at h; cases h; exact List.Subset.refl _
      | cons hd tl =>
        simp only [serStep] at h
        split at h
        · rename_i j s1' heq1
          split at h
          · rename_i js s2 heq2
            cases h; exact List.Subset.trans (ih _ _ _ _ heq1) (ih _ _ _ _ heq2)
          · cases h
        · cases h

/-- Growing the seen-set can only shrink the remaining heap weight. -/
theorem W_mono (H : Heap) (seen s' : List Nat) (h : seen ⊆ s') :
    W H s' ≤ W H seen := by
  induction H with
  | nil => simp [W]
  | cons hd tl ih =>
    obtain ⟨a, n⟩ := hd
    simp only [W]
    by_cases ha : a ∈ seen
    · simp [ha, h ha, ih]
    · by_cases ha' : a ∈ s' <;> simp [ha, ha'] <;> omega

/-- Dereferencing an unseen address pays for the node it reaches. -/
theorem W_lookup (H : Heap) (a : Nat) (node : Node) (seen : List Nat)
    (hl : heapLookup H a = some node) (hn : a ∉ seen) :
    nsize node + 1 + W H (a :: seen) ≤ W H seen := by
  induction H with
  | nil => simp [heapLookup] at hl
  | cons hd tl ih =>
    obtain ⟨a', n⟩ := hd
    simp only [heapLookup] at hl
    by_cases he : a' = a
    · subst he
      have hl' : n = node := by simpa using hl
      subst hl'
      have hw := W_mono tl seen (a' :: seen) (fun x hx => List.mem_cons_of_mem a' hx)
      simp only [W, List.mem_cons, true_or, if_true]
      simp [hn]
      omega
    · simp only [if_neg he] at hl
      have := ih hl
      have hmem : (a' ∈ a :: seen) ↔ (a' ∈ seen) := by
        simp [List.mem_cons, he]
      simp only [W, hmem]
      by_cases h2 : a' ∈ seen <;> simp [h2] <;> omega

/-- Shapes of serializer results for each work-item kind. -/
def shapeOk : STask → SOut → Prop
| STask.sval _, SOut.oval _ => True
| STask.sfields _, SOut.ofields _ => True
| STask.selems _, SOut.oelems _ => True
| _, _ => False

/-- With fuel exceeding the work item's size plus the unseen heap
weight, serialization succeeds, returns a result of the right shape,
and only grows the seen-set.  In particular the serializer terminates
on every input, cyclic heaps included. -/
theorem serFuelSuff (H : Heap) : ∀ fuel seen t, taskSize t + W H seen < fuel →
    ∃ o s1, serStep H fuel seen t = some (o, s1) ∧ shapeOk t o ∧ seen ⊆ s1 := by
  intro fuel
  induction fuel with
  | zero => intro seen t h; omega
  | succ fuel ih =>
    intro seen t hlt
    cases t with
    | sval v =>
      cases v with
      | undef =>
        exact ⟨SOut.oval J.null, seen, by simp [serStep, toJSONStep], trivial, List.Subset.refl _⟩
      | null =>
        exact ⟨SOut.oval J.null, seen, by simp [serStep, toJSONStep], trivial, List.Subset.refl _⟩
      | bool b =>
        exact ⟨SOut.oval (J.bool b), seen, by simp [serStep, toJSONStep], trivial, List.Subset.refl _⟩
      | num n =>
        exact ⟨SOut.oval (J.num n), seen, by simp [serStep, toJSONStep], trivial, List.Subset.refl _⟩
      | str s =>
        exact ⟨SOut.oval (J.str s), seen, by simp [serStep, toJSONStep], trivial, List.Subset.refl _⟩
      | bigint n =>
        exact ⟨SOut.oval (J.str (toString n)), seen, by simp [serStep, toJSONStep], trivial, List.Subset.refl _⟩
      | date iso =>
        exact ⟨SOut.oval (J.str iso), seen, by simp [serStep, toJSONStep], trivial, List.Subset.refl _⟩
      | arr vs =>
        have hs : taskSize (STask.selems vs) + W H seen < fuel := by
          simp only [taskSize, vsize] at hlt ⊢; omega
        obtain ⟨o, s1, heq, hshape, hsub⟩ := ih seen (STask.selems vs) hs
        cases o with
        | oelems js =>
          exact ⟨SOut.oval (J.arr js), s1, by simp [serStep, toJSONStep, heq], trivial, hsub⟩
        | oval j => exact absurd hshape (by simp [shapeOk])
        | ofields fs => exact absurd hshape (by simp [shapeOk])
      | obj kvs =>
        have hs : taskSize (STask.sfields kvs) + W H seen < fuel := by
          simp only [taskSize, vsize] at hlt ⊢; omega
        obtain ⟨o, s1, heq, hshape, hsub⟩ := ih seen (STask.sfields kvs) hs
        cases o with
        | ofields fs =>
          exact ⟨SOut.oval (J.obj fs), s1, by simp [serStep, toJSONStep, heq], trivial, hsub⟩
        | oval j => exact absurd hshape (by simp [shapeOk])
        | oelems js => exact absurd hshape (by simp [shapeOk])
      | ref a =>
        by_cases hseen : a ∈ seen
        · exact ⟨SOut.oval (J.str "[Circular]"), seen, by simp [serStep, toJSONStep, hseen], trivial, List.Subset.refl _⟩
        · match hl : heapLookup H a with
          | none =>
            exact ⟨SOut.oval J.null, seen, by simp [serStep, toJSONStep, hseen, hl], trivial, List.Subset.refl _⟩
          | some (Node.nobj kvs) =>
            have hw := W_lookup H a (Node.nobj kvs) seen hl hseen
            have hs : taskSize (STask.sfields kvs) + W H (a :: seen) < fuel := by
              simp only [taskSize, vsize, nsize] at hlt hw ⊢; omega
            obtain ⟨o, s1, heq, hshape, hsub⟩ := ih (a :: seen) (STask.sfields kvs) hs
            cases o with
            | ofields fs =>
              refine ⟨SOut.oval (J.obj fs), s1, by simp [serStep, toJSONStep, hseen, hl, heq], trivial, ?_⟩
              exact List.Subset.trans (fun x hx => List.mem_cons_of_mem a hx) hsub
            | oval j => exact absurd hshape (by simp [shapeOk])
            | oelems js => exact absurd hshape (by simp [shapeOk])
          | some (Node.narr vs) =>
            have hw := W_lookup H a (Node.narr vs) seen hl hseen
            have hs : taskSize (STask.selems vs) + W H (a :: seen) < fuel := by
              simp only [taskSize, vsize, nsize] at hlt hw ⊢; omega
            obtain ⟨o, s1, heq, hshape, hsub⟩ := ih (a :: seen) (STask.selems vs) hs
            cases o with
            | oelems js =>
              refine ⟨SOut.oval (J.arr js), s1, by simp [serStep, toJSONStep, hseen, hl, heq], trivial, ?_⟩
              exact List.Subset.trans (fun x hx => List.mem_cons_of_mem a hx) hsub
            | oval j => exact absurd hshape (by simp [shapeOk])
            | ofields fs => exact absurd hshape (by simp [shapeOk])
    | sfields kvs =>
      cases kvs with
      | nil => exact ⟨SOut.ofields [], seen, by simp [serStep], trivial, List.Subset.refl _⟩
      | cons hd tl =>
        obtain ⟨k, v⟩ := hd
        have hs1 : taskSize (STask.sval v) + W H seen < fuel := by
          simp only [taskSize, fsize] at hlt ⊢; omega
        obtain ⟨o1, s1, heq1, hshape1, hsub1⟩ := ih seen (STask.sval v) hs1
        cases o1 with
        | oval j =>
          have hwm := W_mono H seen s1 hsub1
          have hs2 : taskSize (STask.sfields tl) + W H s1 < fuel := by
            simp only [taskSize, fsize] at hlt ⊢; omega
          obtain ⟨o2, s2, heq2, hshape2, hsub2⟩ := ih s1 (STask.sfields tl) hs2
          cases o2 with
          | ofields fs =>
            exact ⟨SOut.ofields ((k, j) :: fs), s2, by simp [serStep, heq1, heq2], trivial,
              List.Subset.trans hsub1 hsub2⟩
          | oval j2 => exact absurd hshape2 (by simp [shapeOk])
          | oelems js => exact absurd hshape2 (by simp [shapeOk])
        | ofields fs => exact absurd hshape1 (by simp [shapeOk])
        | oelems js => exact absurd hshape1 (by simp [shapeOk])
    | selems vs =>
      cases vs with
      | nil => exact ⟨SOut.oelems [], seen, by simp [serStep], trivial, List.Subset.refl _⟩
      | cons hd tl =>
        have hs1 : taskSize (STask.sval hd) + W H seen < fuel := by
          simp only [taskSize, esize] at hlt ⊢; omega
        obtain ⟨o1, s1, heq1, hshape1, hsub1⟩ := ih seen (STask.sval hd) hs1
        cases o1 with
        | oval j =>
          have hwm := W_mono H seen s1 hsub1
          have hs2 : taskSize (STask.selems tl) + W H s1 < fuel := by
            simp only [taskSize, esize] at hlt ⊢; omega
          obtain ⟨o2, s2, heq2, hshape2, hsub2⟩ := ih s1 (STask.selems tl) hs2
          cases o2 with
          | oelems js =>
            exact ⟨SOut.oelems (j :: js), s2, by simp [serStep, heq1, heq2], trivial,
              List.Subset.trans hsub1 hsub2⟩
          | oval j2 => exact absurd hshape2 (by simp [shapeOk])
          | ofields fs => exact absurd hshape2 (by simp [shapeOk])
        | ofields fs => exact absurd hshape1 (by simp [shapeOk])
        | oelems js => exact absurd hshape1 (by simp [shapeOk])

/-- Totality: `JSON.stringify` with the plugin's replacer always returns a
document: the serializer terminates on every value over every heap. -/
theorem encodeTop_isSome (H : Heap) (v : JVal) : (encodeTop H v).isSome := by
  have h : taskSize (STask.sval v) + W H [] < serFuel H v := by
    simp [taskSize, serFuel]
  obtain ⟨o, s1, heq, hshape, _⟩ := serFuelSuff H (serFuel H v) [] (STask.sval v) h
  cases o with
  | oval j => simp [encodeTop, heq]
  | ofields fs => exact absurd hshape (by simp [shapeOk])
  | oelems js => exact absurd hshape (by simp [shapeOk])

/-- Any field referring to an already-seen address serializes to the
"[Circular]" sentinel. -/
theorem serStep_fields_circ (H : Heap) : ∀ fuel seen kvs fs s1 (k : String) (a : Nat),
    a ∈ seen → (k, JVal.ref a) ∈ kvs →
    serStep H fuel seen (STask.sfields kvs) = some (SOut.ofields fs, s1) →
    (k, J.str "[Circular]") ∈ fs := by
  intro fuel
  induction fuel with
  | zero => intro seen kvs fs s1 k a _ _ h; simp [serStep] at h
  | succ fuel ih =>
    intro seen kvs fs s1 k a ha hmem h
    cases kvs with
    | nil => simp at hmem
    | cons hd tl =>
      obtain ⟨k', v'⟩ := hd
      simp only [serStep] at h
      split at h
      · rename_i j s1' heq1
        split at h
        · rename_i fs' s2 heq2
          cases h
          rcases List.mem_cons.mp hmem with hhd | htl
          · cases hhd
            cases fuel with
            | zero => simp [serStep] at heq1
            | succ f =>
              simp only [serStep, toJSONStep] at heq1
              rw [if_pos ha] at heq1
              simp only [Option.some.injEq, Prod.mk.injEq] at heq1
              obtain ⟨ho, _⟩ := heq1
              cases ho
              exact List.mem_cons_self _ _
          · have ha' : a ∈ s1' := serStep_mono H fuel seen _ _ _ heq1 ha
            exact List.mem_cons_of_mem _ (ih s1' tl fs' _ k a ha' htl heq2)
        · cases h
      · cases h

/-- Lookup after the `paths.forEach` projection loop: a key found on
the state and listed in the remaining paths ends up with the state's
value; any other key keeps whatever the accumulator had. -/
theorem pickGo_lookup (st : State) (k : String) : ∀ (ps : List String) (acc : State),
    lookupKey (ps.foldl (fun a p =>
      match lookupKey st p with
      | some v => setKey a p v
      | none => a) acc) k
    = if k ∈ ps ∧ (lookupKey st k).isSome then lookupKey st k else lookupKey acc k := by
  intro ps
  induction ps with
  | nil => intro acc; simp
  | cons p ps ih =>
    intro acc
    simp only [List.foldl_cons]
    rw [ih]
    by_cases h1 : k ∈ ps ∧ (lookupKey st k).isSome
    · rw [if_pos h1, if_pos ⟨List.mem_cons_of_mem p h1.1, h1.2⟩]
    · rw [if_neg h1]
      by_cases hp : k = p
      · subst hp
        cases hv : lookupKey st k with
        | none => simp
        | some v => simp [lookupKey_setKey_self]
      · have hcond : ¬(k ∈ p :: ps ∧ (lookupKey st k).isSome) := by
          intro hc
          rcases List.mem_cons.mp hc.1 with h | h
          · exact hp h
          · exact h1 ⟨h, hc.2⟩
        rw [if_neg hcond]
        cases hv : lookupKey st p with
        | none => simp
        | some v => simp [lookupKey_setKey_ne _ _ _ _ (fun h => hp h.symm)]

/-- Function `dispatchesOf` distributes over trace concatenation. -/
theorem dispatchesOf_append (a b : List Ev) :
    dispatchesOf (a ++ b) = dispatchesOf a ++ dispatchesOf b :=
  List.filterMap_append a b _

/-- Function `readKeysOf` distributes over trace concatenation. -/
theorem readKeysOf_append (a b : List Ev) :
    readKeysOf (a ++ b) = readKeysOf a ++ readKeysOf b :=
  List.filterMap_append a b _

/-- Function `removeTriesOf` distributes over trace concatenation. -/
theorem removeTriesOf_append (a b : List Ev) :
    removeTriesOf (a ++ b) = removeTriesOf a ++ removeTriesOf b :=
  List.filterMap_append a b _

/-- One strategy of the write pipeline records exactly one dispatch,
keyed by `resolveKey` and in the mode `shouldUseAsyncOf` picks —
independently of the backend, in particular of write failures. -/
theorem processStrategy_dispatches (cfg : Cfg) (H : Heap) (st : State)
    (b : Backend) (evs : List Ev) (s : Strategy) :
    dispatchesOf ((processStrategy cfg H st (b, evs) s).2)
      = dispatchesOf evs
        ++ [(resolveKey cfg.pre s.key cfg.storeId, shouldUseAsyncOf cfg.globalAsync s)] := by
  unfold processStrategy
  by_cases ha : shouldUseAsyncOf cfg.globalAsync s
  · simp only [ha, if_true]
    rw [dispatchesOf_append, dispatchesOf_append]
    split <;> simp [dispatchesOf, ha]
  · simp only [ha, Bool.false_eq_true, if_false]
    split
    · rw [dispatchesOf_append, dispatchesOf_append]
      split <;> simp [dispatchesOf, ha]
    · rw [dispatchesOf_append, dispatchesOf_append]
      split <;> simp [dispatchesOf, ha]

/-- The write pipeline's fold: one dispatch per strategy, in order. -/
theorem processFold_dispatches (cfg : Cfg) (H : Heap) (st : State) :
    ∀ (ss : List Strategy) (b : Backend) (evs : List Ev),
    dispatchesOf ((ss.foldl (processStrategy cfg H st) (b, evs)).2)
      = dispatchesOf evs ++ ss.map (fun s =>
          (resolveKey cfg.pre s.key cfg.storeId, shouldUseAsyncOf cfg.globalAsync s)) := by
  intro ss
  induction ss with
  | nil => intro b evs; simp
  | cons s ss ih =>
    intro b evs
    simp only [List.foldl_cons, List.map_cons]
    have hstep := processStrategy_dispatches cfg H st b evs s
    rcases hps : processStrategy cfg H st (b, evs) s with ⟨b', evs'⟩
    rw [hps] at hstep
    rw [ih b' evs']
    simp only [hstep]
    simp

/-- One removal attempt appends exactly its `removeTry` event, whether
or not the backend removal throws. -/
theorem resetRemoveStep_evs (cfg : Cfg) (b : Backend) (evs : List Ev) (s : Strategy) :
    (resetRemoveStep cfg (b, evs) s).2
      = evs ++ [Ev.removeTry (resolveKey cfg.pre s.key cfg.storeId)] := by
  simp only [resetRemoveStep]
  cases removeStorageSync b (resolveKey cfg.pre s.key cfg.storeId) <;> rfl

/-- The reset interceptor's removal fold records one removal attempt
per strategy, whether or not the backend removal throws. -/
theorem resetFold_trace (cfg : Cfg) : ∀ (ss : List Strategy) (b : Backend) (evs : List Ev),
    (ss.foldl (resetRemoveStep cfg) (b, evs)).2
      = evs ++ ss.map (fun s => Ev.removeTry (resolveKey cfg.pre s.key cfg.storeId)) := by
  intro ss
  induction ss with
  | nil => intro b evs; simp
  | cons s ss ih =>
    intro b evs
    simp only [List.foldl_cons, List.map_cons]
    have hstep := resetRemoveStep_evs cfg b evs s
    rcases hps : resetRemoveStep cfg (b, evs) s with ⟨b', evs'⟩
    rw [hps] at hstep
    rw [ih b' evs']
    have hstep' : evs' = evs ++ [Ev.removeTry (resolveKey cfg.pre s.key cfg.storeId)] := hstep
    rw [hstep']
    simp

/-- Removal attempts of a pure removal trace. -/
theorem removeTriesOf_map_removeTry (ks : List String) :
    removeTriesOf (ks.map Ev.removeTry) = ks := by
  induction ks with
  | nil => rfl
  | cons k ks ih =>
    simp only [List.map_cons, removeTriesOf, List.filterMap_cons] at ih ⊢
    rw [ih]

/-- Reads recorded during one restore step, with the parse-log filter
dropped. -/
theorem readKeysOf_step (evs : List Ev) (key : String) (raw : String) :
    readKeysOf (evs ++ [Ev.readK key] ++ (if parseLogged raw then [Ev.logParseErr] else []))
      = readKeysOf evs ++ [key] := by
  rw [readKeysOf_append, readKeysOf_append]
  split <;> simp [readKeysOf]

/-- When no backend read throws, the restore engine reads exactly the
strategies' resolved keys, in declaration order. -/
theorem restoreGo_reads (cfg : Cfg) : ∀ (ss : List Strategy) (b : Backend) (st : State)
    (evs : List Ev), b.readFails = [] →
    readKeysOf ((restoreGo cfg ss b st evs).2)
      = readKeysOf evs ++ ss.map (fun s => resolveKey cfg.pre s.key cfg.storeId) := by
  intro ss
  induction ss with
  | nil => intro b st evs _; simp [restoreGo]
  | cons s ss ih =>
    intro b st evs hrf
    have hread : getStorageSync b (resolveKey cfg.pre s.key cfg.storeId)
        = Except.ok ((lookupKey b.store (resolveKey cfg.pre s.key cfg.storeId)).getD "") := by
      simp [getStorageSync, hrf]
    simp only [restoreGo, hread]
    split <;> rw [ih b _ _ hrf, readKeysOf_step] <;> simp

/- Claim theorems. -/

/-- Claim C1 (code bug): restoring against a corrupted (non-JSON)
stored value does not throw, leaves the state at its declared defaults
and logs the parse error — but the corrupted key is NOT removed from
storage: `safeParse` catches the decode failure internally and returns
null, so the restore loop's catch-and-remove branch (which only backend
READ exceptions reach) never runs and the poisoned key survives. -/
theorem restore_corrupt_value :
    restoreAll ⟨"", "cart", true, [⟨some "cart", none, none⟩]⟩
        ⟨[("cart", "not json")], [], [], []⟩ [("count", JVal.num 0)]
      = (Except.ok (⟨[("cart", "not json")], [], [], []⟩, [("count", JVal.num 0)]),
         [Ev.readK "cart", Ev.logParseErr]) ∧
    safeParse "not json" = JVal.null ∧
    lookupKey [("cart", "not json")] "cart" = some "not json" :=
  ⟨rfl, rfl, rfl⟩

/-- Claim C2 (code bug): `decode(encode(s))` behaves as claimed for
undefined (becomes null) and big integers (become decimal strings), but
a TOP-LEVEL date does not round-trip: `JSON.stringify` invokes
`Date.prototype.toJSON` before the replacer, so the date is serialized
as a bare ISO string, no marker is produced, and decoding returns that
plain string instead of a date value. -/
theorem roundtrip_top_level_date_fails :
    safeParse (safeStringify [] (JVal.obj [("u", JVal.undef), ("big", JVal.bigint 42)]))
      = JVal.obj [("u", JVal.null), ("big", JVal.str "42")] ∧
    safeParse (safeStringify [] (JVal.obj [("d", JVal.date "2024-01-02T03:04:05.000Z")]))
      = JVal.obj [("d", JVal.str "2024-01-02T03:04:05.000Z")] ∧
    JVal.obj [("d", JVal.str "2024-01-02T03:04:05.000Z")]
      ≠ JVal.obj [("d", JVal.date "2024-01-02T03:04:05.000Z")] := by
  refine ⟨rfl, rfl, ?_⟩
  simp

/-- Claim C3 (code bug): the encoder never emits the `__date__` marker
— a date serializes to its bare ISO string because `toJSON` runs before
the replacer (whose own date branch would indeed build the marker).
The decode half of the claim is real code behaviour: a stored top-level
marker IS rehydrated to a date, and markers nested more than one level
deep are NOT. -/
theorem encode_emits_plain_iso_not_marker :
    safeStringify [] (JVal.obj [("d", JVal.date "2024-01-02T03:04:05.000Z")])
      = "\x7b\"d\":\"2024-01-02T03:04:05.000Z\"\x7d" ∧
    (∀ iso, toJSONStep (JVal.date iso) = JVal.str iso) ∧
    safeParse "\x7b\"d\":\x7b\"__date__\":\"2024-01-02T03:04:05.000Z\"\x7d\x7d"
      = JVal.obj [("d", JVal.date "2024-01-02T03:04:05.000Z")] ∧
    safeParse "\x7b\"a\":\x7b\"b\":\x7b\"__date__\":\"2024-01-02T03:04:05.000Z\"\x7d\x7d\x7d"
      = JVal.obj [("a", JVal.obj
          [("b", JVal.obj [("__date__", JVal.str "2024-01-02T03:04:05.000Z")])])] :=
  ⟨rfl, fun _ => rfl, rfl, rfl⟩

/-- Claim C4 counterexample: with prefix "app_", strategy key "" and
store id "user" the code resolves "app_user" — the `||` fallback fires
on the empty string — whereas `prefix + (strategyKey ?? storeId)` as
claimed would give "app_". -/
theorem resolveKey_empty_key_cex :
    resolveKey "app_" (some "") "user" = "app_user" ∧
    specResolveKey "app_" (some "") "user" = "app_" ∧
    resolveKey "app_" (some "") "user" ≠ specResolveKey "app_" (some "") "user" := by
  refine ⟨rfl, rfl, ?_⟩
  decide

/-- Claim C4 (amended): the resolved key is the prefix followed by the
strategy key when that is present AND non-empty, and the store id
otherwise (JavaScript `||`, not `??`: the empty-string key falls back
to the store id); resolution is pure, and the restore engine, the write
pipeline and the reset interceptor all address exactly the strategies'
resolved keys. -/
theorem resolveKey_amended :
    (∀ pre i, resolveKey pre none i = pre ++ i) ∧
    (∀ pre s i, s ≠ "" → resolveKey pre (some s) i = pre ++ s) ∧
    (∀ pre i, resolveKey pre (some "") i = pre ++ i) ∧
    (∀ (cfg : Cfg) (H : Heap) (b : Backend) (st : State),
      (dispatchesOf (processMutation cfg H b st).2).map Prod.fst = strategyKeys cfg) ∧
    (∀ (cfg : Cfg) (b : Backend) (st : State), b.readFails = [] →
      readKeysOf (restoreAll cfg b st).2 = strategyKeys cfg) ∧
    (∀ (cfg : Cfg) (orig : State → Except Unit State) (b : Backend) (st st' : State),
      orig st = Except.ok st' →
      removeTriesOf (wrappedReset orig cfg b st).2 = strategyKeys cfg) := by
  refine ⟨fun pre i => rfl, ?_, fun pre i => rfl, ?_, ?_, ?_⟩
  · intro pre s i h
    simp [resolveKey, h]
  · intro cfg H b st
    rw [show processMutation cfg H b st
        = cfg.strategies.foldl (processStrategy cfg H st) (b, []) from rfl,
      processFold_dispatches]
    simp [dispatchesOf, strategyKeys]
  · intro cfg b st h
    rw [show restoreAll cfg b st = restoreGo cfg cfg.strategies b st [] from rfl,
      restoreGo_reads cfg cfg.strategies b st [] h]
    simp [readKeysOf, strategyKeys]
  · intro cfg orig b st st' h
    simp only [wrappedReset, h]
    rw [resetFold_trace]
    simp only [List.nil_append]
    rw [show cfg.strategies.map (fun s => Ev.removeTry (resolveKey cfg.pre s.key cfg.storeId))
        = (cfg.strategies.map (fun s => resolveKey cfg.pre s.key cfg.storeId)).map Ev.removeTry
      from (List.map_map _ _ _).symm]
    rw [removeTriesOf_map_removeTry]
    rfl

/-- Spot check of the amended key resolution at the spec's own examples
and of the reset interceptor's addressing. -/
theorem resolveKey_amended_spot :
    resolveKey "app_" (some "user_key") "user" = "app_user_key" ∧
    resolveKey "" none "cart" = "cart" ∧
    removeTriesOf (wrappedReset (fun st => Except.ok st)
        ⟨"p_", "s", true, [⟨some "k", none, none⟩]⟩ ⟨[], [], [], []⟩ []).2
      = strategyKeys ⟨"p_", "s", true, [⟨some "k", none, none⟩]⟩ :=
  ⟨resolveKey_amended.2.1 "app_" "user_key" "user" (by decide),
   resolveKey_amended.1 "" "cart",
   resolveKey_amended.2.2.2.2.2 _ _ _ _ _ rfl⟩

/-- Claim C5 counterexample: with an original reset that throws, the
wrapped reset propagates the exception, attempts NO removal, and the
strategy's key survives in storage — against the claim's "regardless of
whether the original reset succeeded or threw". -/
theorem reset_throwing_original_cex :
    wrappedReset (fun _ => Except.error ()) ⟨"p_", "s", true, [⟨some "k", none, none⟩]⟩
        ⟨[("p_k", "v")], [], [], []⟩ []
      = (Except.error (), []) ∧
    lookupKey [("p_k", "v")] "p_k" = some "v" :=
  ⟨rfl, rfl⟩

/-- Claim C5 (amended): when the original reset returns, the wrapped
reset keeps its effect and return value and attempts to remove every
strategy's resolved key, swallowing removal errors — it returns ok for
EVERY backend, so reset never fails because of persistence cleanup;
when the original reset throws, the exception propagates unchanged and
no removal is attempted. -/
theorem reset_interceptor_amended :
    (∀ (orig : State → Except Unit State) (cfg : Cfg) (b : Backend) (st st' : State),
      orig st = Except.ok st' →
      ∃ b', wrappedReset orig cfg b st
        = (Except.ok (st', b'),
           cfg.strategies.map (fun s => Ev.removeTry (resolveKey cfg.pre s.key cfg.storeId)))) ∧
    (∀ (orig : State → Except Unit State) (cfg : Cfg) (b : Backend) (st : State) (e : Unit),
      orig st = Except.error e →
      wrappedReset orig cfg b st = (Except.error e, [])) := by
  constructor
  · intro orig cfg b st st' h
    refine ⟨(cfg.strategies.foldl (resetRemoveStep cfg) (b, [])).1, ?_⟩
    simp only [wrappedReset, h]
    rw [resetFold_trace]
    simp
  · intro orig cfg b st e h
    simp [wrappedReset, h]

/-- Spot check of the amended reset contract: a failing removal is
swallowed and the wrapped reset still succeeds. -/
theorem reset_interceptor_amended_spot :
    ∃ b', wrappedReset (fun st => Except.ok st)
        ⟨"p_", "s", true, [⟨some "k", none, none⟩]⟩
        ⟨[("p_k", "v")], [], ["p_k"], []⟩ []
      = (Except.ok (([] : State), b'), [Ev.removeTry "p_k"]) :=
  reset_interceptor_amended.1 _ _ _ _ _ rfl

/-- Claim C6: on every mutation notification each strategy produces
exactly one dispatch, in declaration order and keyed by `resolveKey`,
whose mode is asynchronous iff (global async AND the strategy's async
field is not explicitly false) OR the strategy's async field is
explicitly true.  The dispatch list is the same for EVERY backend — in
particular for backends whose synchronous writes throw — so a caught
sync-write failure never prevents the remaining strategies from being
processed. -/
theorem write_mode_formula_and_isolation :
    (∀ (cfg : Cfg) (H : Heap) (b : Backend) (st : State),
      dispatchesOf (processMutation cfg H b st).2
        = cfg.strategies.map (fun s =>
            (resolveKey cfg.pre s.key cfg.storeId, shouldUseAsyncOf cfg.globalAsync s))) ∧
    (∀ (g : Bool) (s : Strategy),
      shouldUseAsyncOf g s = true ↔ ((g = true ∧ s.async ≠ some false) ∨ s.async = some true)) := by
  constructor
  · intro cfg H b st
    rw [show processMutation cfg H b st
        = cfg.strategies.foldl (processStrategy cfg H st) (b, []) from rfl,
      processFold_dispatches]
    simp [dispatchesOf]
  · intro g s
    obtain ⟨k, p, a⟩ := s
    rcases a with _ | b
    · cases g <;> simp [shouldUseAsyncOf]
    · cases g <;> cases b <;> simp [shouldUseAsyncOf]

/-- Claim C7: with absent or empty paths `pick` returns the whole state
(the shallow copy `\x7b...state\x7d`); with paths it returns exactly the listed
top-level keys that exist on the state, silently skipping missing keys;
including the spec's concrete examples. -/
theorem pick_projection_spec :
    (∀ st, pick st none = st) ∧
    (∀ st, pick st (some []) = st) ∧
    (∀ (st : State) (ps : List String) (k : String), ps ≠ [] →
      lookupKey (pick st (some ps)) k
        = if k ∈ ps ∧ (lookupKey st k).isSome then lookupKey st k else none) ∧
    pick [("a", JVal.num 1), ("b", JVal.num 2), ("c", JVal.num 3)] (some ["a", "c"])
      = [("a", JVal.num 1), ("c", JVal.num 3)] ∧
    pick [("a", JVal.num 1), ("b", JVal.num 2)] none
      = [("a", JVal.num 1), ("b", JVal.num 2)] ∧
    pick [("a", JVal.num 1)] (some ["missing"]) = [] := by
  refine ⟨fun st => rfl, fun st => rfl, ?_, rfl, rfl, rfl⟩
  intro st ps k h
  cases ps with
  | nil => exact absurd rfl h
  | cons p pt =>
    show lookupKey ((p :: pt).foldl _ []) k = _
    rw [pickGo_lookup]
    simp [lookupKey]

/-- Spot check of the projection characterization: a missing key is
skipped, a present one keeps its value. -/
theorem pick_projection_spec_spot :
    lookupKey (pick [("a", JVal.num 1)] (some ["missing", "a"])) "missing" = none ∧
    lookupKey (pick [("a", JVal.num 1)] (some ["missing", "a"])) "a" = some (JVal.num 1) :=
  ⟨(pick_projection_spec.2.2.1 _ _ _ (by decide)).trans rfl,
   (pick_projection_spec.2.2.1 _ _ _ (by decide)).trans rfl⟩

/-- Claim C8: the encoder terminates with a document for EVERY value
over every heap, cyclic object graphs included; a field referring to an
object already seen during the same encode call — here the
self-reference — serializes to the literal string "[Circular]"; and the
seen-set starts empty on each call, so the root object of a fresh
encode call is never itself reported circular. -/
theorem encode_circular_total :
    (∀ (H : Heap) (v : JVal), (encodeTop H v).isSome) ∧
    (∀ (H : Heap) (a : Nat) (kvs : List (String × JVal)) (k : String),
      heapLookup H a = some (Node.nobj kvs) → (k, JVal.ref a) ∈ kvs →
      ∃ fs, encodeTop H (JVal.ref a) = some (J.obj fs) ∧ (k, J.str "[Circular]") ∈ fs) ∧
    (∀ (H : Heap) (a : Nat) (node : Node) (j : J),
      heapLookup H a = some node → encodeTop H (JVal.ref a) = some j →
      j ≠ J.str "[Circular]") := by
  refine ⟨encodeTop_isSome, ?_, ?_⟩
  · intro H a kvs k hl hmem
    have hv : vsize (JVal.ref a) = 1 := rfl
    have hlt : taskSize (STask.sfields kvs) + W H [a] < 1 + W H [] := by
      have hw := W_lookup H a (Node.nobj kvs) [] hl (by simp)
      simp only [taskSize, nsize] at hw ⊢
      omega
    obtain ⟨o, s1, heq, hshape, _⟩ := serFuelSuff H (1 + W H []) [a] (STask.sfields kvs) hlt
    cases o with
    | ofields fs =>
      refine ⟨fs, ?_, ?_⟩
      · simp only [encodeTop, serStep, toJSONStep]
        simp [hl, heq, hv]
      · exact serStep_fields_circ H (1 + W H []) [a] kvs fs s1 k a (by simp) hmem heq
    | oval j => exact absurd hshape (by simp [shapeOk])
    | oelems js => exact absurd hshape (by simp [shapeOk])
  · intro H a node j hl henc
    cases node with
    | nobj kvs =>
      simp only [encodeTop, serStep, toJSONStep, hl] at henc
      rw [if_neg (List.not_mem_nil a)] at henc
      split at henc
      · rename_i fs s1 heq
        simp only [Option.some.injEq] at henc
        subst henc
        split at heq
        · rename_i fs2 s2 heq2
          simp only [Option.some.injEq, Prod.mk.injEq, SOut.oval.injEq] at heq
          obtain ⟨h1, _⟩ := heq
          subst h1
          simp
        · simp at heq
      · simp at henc
    | narr vs =>
      simp only [encodeTop, serStep, toJSONStep, hl] at henc
      rw [if_neg (List.not_mem_nil a)] at henc
      split at henc
      · rename_i js s1 heq
        simp only [Option.some.injEq] at henc
        subst henc
        split at heq
        · rename_i js2 s2 heq2
          simp only [Option.some.injEq, Prod.mk.injEq, SOut.oval.injEq] at heq
          obtain ⟨h1, _⟩ := heq
          subst h1
          simp
        · simp at heq
      · simp at henc

/-- Spot check: a one-object heap with `self` pointing at itself
encodes to an object whose `self` member is the circular sentinel. -/
theorem encode_circular_total_spot :
    heapLookup [(0, Node.nobj [("self", JVal.ref 0)])] 0
        = some (Node.nobj [("self", JVal.ref 0)]) ∧
    (∃ fs, encodeTop [(0, Node.nobj [("self", JVal.ref 0)])] (JVal.ref 0)
        = some (J.obj fs) ∧ ("self", J.str "[Circular]") ∈ fs) :=
  ⟨rfl, encode_circular_total.2.1 _ 0 _ "self" rfl (List.mem_singleton.mpr rfl)⟩

/-- Claim C9: per strategy per notification, the oversize warning event
appears exactly when the encoded record exceeds the 3.5 MiB soft
threshold, and exactly one write is dispatched in every case — the
oversize condition never suppresses or blocks the write. -/
theorem oversize_warns_write_proceeds :
    ∀ (cfg : Cfg) (H : Heap) (st : State) (b : Backend) (s : Strategy),
      (Ev.warnSize (resolveKey cfg.pre s.key cfg.storeId)
          ∈ (processStrategy cfg H st (b, []) s).2
        ↔ sizeThreshold < getByteLength (safeStringify H (JVal.obj (pick st s.paths)))) ∧
      dispatchesOf ((processStrategy cfg H st (b, []) s).2)
        = [(resolveKey cfg.pre s.key cfg.storeId, shouldUseAsyncOf cfg.globalAsync s)] := by
  intro cfg H st b s
  constructor
  · unfold processStrategy
    by_cases ha : shouldUseAsyncOf cfg.globalAsync s
    · simp only [ha, if_true]
      by_cases hc : sizeThreshold < getByteLength (safeStringify H (JVal.obj (pick st s.paths)))
        <;> simp [hc]
    · simp only [ha, Bool.false_eq_true, if_false]
      by_cases hc : sizeThreshold < getByteLength (safeStringify H (JVal.obj (pick st s.paths)))
        <;> split <;> simp [hc]
  · exact (processStrategy_dispatches cfg H st b [] s).trans (by simp [dispatchesOf])

/-- Claim C10: with the per-store async field unspecified the global
mode defaults to asynchronous (`persist.async ?? true`) and the
subscription uses post-tick flush; synchronous flush is used exactly
when the global async field is explicitly false; and with the default
in effect, a strategy without its own override dispatches through the
asynchronous backend call. -/
theorem global_async_default :
    (∀ a : Option Bool, a = none → globalAsyncOf a = true ∧ flushOf a = FlushMode.post) ∧
    (∀ a : Option Bool, flushOf a = FlushMode.sync ↔ a = some false) ∧
    (∀ (po : PersistOptions) (storeId keyPre : String), po.async = none →
      (mkCfg keyPre storeId po).globalAsync = true) ∧
    (∀ (cfg : Cfg) (H : Heap) (st : State) (b : Backend) (s : Strategy),
      cfg.globalAsync = true → s.async = none →
      (processStrategy cfg H st (b, []) s).2
        = (if sizeThreshold < getByteLength (safeStringify H (JVal.obj (pick st s.paths)))
            then [Ev.warnSize (resolveKey cfg.pre s.key cfg.storeId)] else [])
          ++ [Ev.wAsync (resolveKey cfg.pre s.key cfg.storeId)
              (safeStringify H (JVal.obj (pick st s.paths)))]) := by
  refine ⟨?_, ?_, ?_, ?_⟩
  · intro a h; subst h; exact ⟨rfl, rfl⟩
  · intro a
    rcases a with _ | b
    · simp [flushOf, globalAsyncOf]
    · cases b <;> simp [flushOf, globalAsyncOf]
  · intro po sid kp h
    simp [mkCfg, globalAsyncOf, h]
  · intro cfg H st b s hg hs
    have ha : shouldUseAsyncOf cfg.globalAsync s = true := by
      simp [shouldUseAsyncOf, hg, hs]
    unfold processStrategy
    simp only [ha, if_true]
    simp

/-- Spot check: an unspecified global async field yields asynchronous
mode and post-tick flush. -/
theorem global_async_default_spot :
    globalAsyncOf none = true ∧ flushOf none = FlushMode.post :=
  global_async_default.1 none rfl

end UniPersist
